import Mathlib

/-
Verification of the object codec, tree assembler, tree decoder and commit
builder of a small content-addressable object store (a git clone written in
Rust).  Bytes are modelled as Nat (values 0 to 255 in practice), byte strings
as List Nat.  Machine integers of the source (u64 sizes) are modelled as Nat
with the explicit bound 2 ^ 64 where the source parses into u64.  Fallible
Rust functions returning anyhow::Result are modelled with explicit result
inductives; a Rust panic (expect / panic) is modelled by a dedicated
result constructor, kept distinct from returned errors.  The zlib layer
(external crate flate2) is an inverse pair compress/decompress; all
definitions below work on the decompressed logical byte stream, which is
exactly the stream the source hashes and parses.
-/

namespace GitSpec

/-! ## Basic byte-stream utilities shared by the codec and the tree decoder -/

/-- Model of BufRead::read_until(0): returns the consumed buffer (including
the nul delimiter when one is found; the whole stream when none is) and the
remaining stream. -/
def readUntilNul : List Nat → List Nat × List Nat
  | [] => ([], [])
  | b :: rest =>
    if b = 0 then ([0], rest)
    else
      let p := readUntilNul rest
      (b :: p.1, p.2)

/-- Model of CStr::from_bytes_with_nul: succeeds returning the bytes without
the trailing nul exactly when the buffer has a nul as its last byte and no
interior nul. -/
def cstrFromBytesWithNul (buf : List Nat) : Option (List Nat) :=
  match buf.reverse with
  | 0 :: restRev =>
    let pre := restRev.reverse
    if pre.all (fun b => b != 0) then some pre else none
  | _ => none

/-- Checks a run of continuation-style bytes against a list of allowed
ranges and returns the remaining stream on success. -/
def utf8Tail : List Nat → List (Nat × Nat) → Option (List Nat)
  | rest, [] => some rest
  | [], _ :: _ => none
  | c :: rest, r :: ranges =>
    if r.1 ≤ c && c ≤ r.2 then utf8Tail rest ranges else none

/-- Consumes one UTF-8 encoded code point from the stream, following the
UTF-8 well-formedness table (no continuation byte in lead position, no
overlong encoding, no surrogate, nothing above 0x10FFFF), returning the
remaining stream. -/
def utf8Step : List Nat → Option (List Nat)
  | [] => none
  | b :: rest =>
    if b ≤ 127 then some rest
    else if b ≤ 193 then none
    else if b ≤ 223 then utf8Tail rest [(128, 191)]
    else if b = 224 then utf8Tail rest [(160, 191), (128, 191)]
    else if b ≤ 236 then utf8Tail rest [(128, 191), (128, 191)]
    else if b = 237 then utf8Tail rest [(128, 159), (128, 191)]
    else if b ≤ 239 then utf8Tail rest [(128, 191), (128, 191)]
    else if b = 240 then utf8Tail rest [(144, 191), (128, 191), (128, 191)]
    else if b ≤ 243 then utf8Tail rest [(128, 191), (128, 191), (128, 191)]
    else if b = 244 then utf8Tail rest [(128, 143), (128, 191), (128, 191)]
    else none

/-- Fuel-indexed validation loop; with fuel at least the stream length it
decides full UTF-8 validity, since every step consumes at least one byte. -/
def isValidUtf8Fuel : Nat → List Nat → Bool
  | _, [] => true
  | 0, _ :: _ => false
  | f + 1, b :: bs =>
    match utf8Step (b :: bs) with
    | none => false
    | some r => isValidUtf8Fuel f r

/-- Byte-level model of Rust str::from_utf8 validity (the check behind
CStr::to_str). -/
def isValidUtf8 (l : List Nat) : Bool := isValidUtf8Fuel l.length l

/-- Model of str::split_once at the space character (byte 32): splits at the
first space, or none when the string has no space. -/
def splitOnceSpace : List Nat → Option (List Nat × List Nat)
  | [] => none
  | b :: rest =>
    if b = 32 then some ([], rest)
    else
      match splitOnceSpace rest with
      | none => none
      | some p => some (b :: p.1, p.2)

/-- Helper for the model of str::parse::<u64>: Rust integer parsing accepts
one optional leading plus sign (byte 43). -/
def plusStripped (s : List Nat) : List Nat :=
  match s with
  | b :: rest => if b = 43 then rest else s
  | [] => s

/-- Model of str::parse::<u64>: optional plus sign, at least one digit, only
decimal digits, and value within the u64 range. -/
def parseU64 (s : List Nat) : Option Nat :=
  let digits := plusStripped s
  if digits.isEmpty then none
  else if digits.all (fun b => 48 ≤ b && b ≤ 57) then
    let v := digits.foldl (fun acc b => acc * 10 + (b - 48)) 0
    if v < 2 ^ 64 then some v else none
  else none

/-- Little-endian decimal digits of a positive natural number. -/
def decimalDigitsAux : Nat → List Nat
  | 0 => []
  | n + 1 => (n + 1) % 10 :: decimalDigitsAux ((n + 1) / 10)
decreasing_by exact Nat.div_lt_self (Nat.succ_pos n) (by omega)

/-- Model of the Display rendering of an unsigned integer: standard decimal
ASCII digits, no sign, no leading zeros (a single 48 for zero). -/
def natToDecimal (n : Nat) : List Nat :=
  if n = 0 then [48] else ((decimalDigitsAux n).reverse).map (fun d => d + 48)

/-- Model of hex::encode producing lowercase hex ASCII bytes. -/
def hexDigitChar (n : Nat) : Nat :=
  if n < 10 then 48 + n else 87 + n

/-- Hex encoding of a raw byte string, two ASCII bytes per input byte. -/
def hexEncode : List Nat → List Nat
  | [] => []
  | b :: rest => hexDigitChar (b / 16) :: hexDigitChar (b % 16) :: hexEncode rest

/-! ## Object codec (src/object.rs) -/

/-- The object type tag of src/object.rs. -/
inductive ObjectType where
  | blob
  | tree
  | commit
deriving DecidableEq

/-- ASCII bytes of the Display form of an ObjectType (blob / tree / commit). -/
def ObjectType.typeBytes : ObjectType → List Nat
  | .blob => [98, 108, 111, 98]
  | .tree => [116, 114, 101, 101]
  | .commit => [99, 111, 109, 109, 105, 116]

/-- The type-name match of Object::read: blob, tree or commit, anything else
is the unknown-type bail. -/
def objectTypeOfBytes (s : List Nat) : Option ObjectType :=
  if s = [98, 108, 111, 98] then some ObjectType.blob
  else if s = [116, 114, 101, 101] then some ObjectType.tree
  else if s = [99, 111, 109, 109, 105, 116] then some ObjectType.commit
  else none

/-- Errors returned (as anyhow errors) by Object::read. -/
inductive ReadErr where
  | malformedHeader
  | unknownType
deriving DecidableEq

/-- Result of Object::read on a decompressed byte stream.  The aborted
constructor models the expect call on CStr::from_bytes_with_nul, which
panics instead of returning an error. -/
inductive ReadResult where
  | ok (t : ObjectType) (size : Nat) (content : List Nat)
  | err (e : ReadErr)
  | aborted
deriving DecidableEq

/-- Model of Object::read (src/object.rs lines 74 to 110) applied to the
decompressed byte stream of an object file: read the header up to the first
nul, check it through CStr::from_bytes_with_nul (a panic on failure), decode
UTF-8, split at the first space, match the type name, parse the size as u64,
and limit the remaining stream to exactly size bytes (Read::take). -/
def objectRead (bytes : List Nat) : ReadResult :=
  let p := readUntilNul bytes
  match cstrFromBytesWithNul p.1 with
  | none => ReadResult.aborted
  | some headerBytes =>
    if isValidUtf8 headerBytes then
      match splitOnceSpace headerBytes with
      | none => ReadResult.err ReadErr.malformedHeader
      | some ts =>
        match objectTypeOfBytes ts.1 with
        | none => ReadResult.err ReadErr.unknownType
        | some t =>
          match parseU64 ts.2 with
          | none => ReadResult.err ReadErr.malformedHeader
          | some size => ReadResult.ok t size (p.2.take size)
    else ReadResult.err ReadErr.malformedHeader

/-- Model of Object::write (src/object.rs lines 117 to 128): the logical
uncompressed stream it hashes and feeds to the zlib encoder, namely the
header with the declared size followed by every byte of the reader. -/
def objectWrite (t : ObjectType) (size : Nat) (content : List Nat) : List Nat :=
  t.typeBytes ++ 32 :: (natToDecimal size ++ 0 :: content)

/-- Result of the cat-file operation of src/main.rs (same logic in
src/git.rs): header errors are returned (not panics) there, unknown types
include tree, and the byte count copied out is compared with the declared
size. -/
inductive CatResult where
  | ok (out : List Nat)
  | errHeader
  | errUnknownType
  | errSize
  | sizeMismatch (expected actual : Nat)
deriving DecidableEq

/-- The type-name match of cat_file in src/main.rs: only blob and commit are
accepted there. -/
def catTypeOk (s : List Nat) : Bool :=
  s = [98, 108, 111, 98] || s = [99, 111, 109, 109, 105, 116]

/-- Model of cat_file (src/main.rs lines 53 to 92) on the decompressed byte
stream: parse the header (errors returned via context, no expect), take the
declared number of bytes, copy them out, and ensure the copied count equals
the declared size. -/
def catFile (bytes : List Nat) : CatResult :=
  let p := readUntilNul bytes
  match cstrFromBytesWithNul p.1 with
  | none => CatResult.errHeader
  | some headerBytes =>
    if isValidUtf8 headerBytes then
      match splitOnceSpace headerBytes with
      | none => CatResult.errHeader
      | some ts =>
        if catTypeOk ts.1 then
          match parseU64 ts.2 with
          | none => CatResult.errSize
          | some size =>
            let out := p.2.take size
            if out.length = size then CatResult.ok out
            else CatResult.sizeMismatch size out.length
        else CatResult.errUnknownType
    else CatResult.errHeader

/-! ## Tree entry model and comparator (src/tree.rs) -/

/-- The entry mode enum of src/tree.rs. -/
inductive TreeEntryMode where
  | regularFile
  | executableFile
  | symbolicLink
  | directory
deriving DecidableEq

/-- The mode string written by TreeEntryBytesBuilder::to_raw_bytes: the
Display form for files and links, but 40000 (no leading zero) for a
directory. -/
def modeWriteBytes : TreeEntryMode → List Nat
  | .regularFile => [49, 48, 48, 54, 52, 52]
  | .executableFile => [49, 48, 48, 55, 53, 53]
  | .symbolicLink => [49, 50, 48, 48, 48, 48]
  | .directory => [52, 48, 48, 48, 48]

/-- The mode-string match of the From conversion for TreeEntryMode
(src/tree.rs lines 62 to 72): the four known octal codes, where the
directory code is accepted with or without the leading zero; any other
string is the panic branch, modelled as none here and mapped to an aborted
result at the call site. -/
def treeEntryModeOfBytes (s : List Nat) : Option TreeEntryMode :=
  if s = [49, 48, 48, 54, 52, 52] then some TreeEntryMode.regularFile
  else if s = [49, 48, 48, 55, 53, 53] then some TreeEntryMode.executableFile
  else if s = [49, 50, 48, 48, 48, 48] then some TreeEntryMode.symbolicLink
  else if s = [48, 52, 48, 48, 48, 48] ∨ s = [52, 48, 48, 48, 48] then
    some TreeEntryMode.directory
  else none

/-- The data the comparator consults from a TreeEntryBytesBuilder: the name
bytes and the mode.  In the source the builder also stores is_dir, set from
the same metadata that determines the mode, so is_dir holds exactly when
the mode is Directory. -/
structure TreeEntryBytesBuilder where
  mode : TreeEntryMode
  name : List Nat
deriving DecidableEq

/-- The is_dir flag of a builder, derived from the mode (see above). -/
def TreeEntryBytesBuilder.isDirB (b : TreeEntryBytesBuilder) : Bool :=
  b.mode = TreeEntryMode.directory

/-- Lexicographic comparison of byte slices, the Ord instance used on
name[..common_len] slices in the source. -/
def bytesCmp : List Nat → List Nat → Ordering
  | [], [] => Ordering.eq
  | [], _ :: _ => Ordering.lt
  | _ :: _, [] => Ordering.gt
  | a :: as1, b :: bs1 =>
    match compare a b with
    | Ordering.eq => bytesCmp as1 bs1
    | o => o

/-- The Ord instance of Option of u8 used for the final c1.cmp(c2): none
sorts before some. -/
def optByteCmp : Option Nat → Option Nat → Ordering
  | none, none => Ordering.eq
  | none, some _ => Ordering.lt
  | some _, none => Ordering.gt
  | some a, some b => compare a b

/-- Model of compare_tree_entry_bytes_builder (src/tree.rs lines 151 to
183): compare the name prefixes up to the shorter length; if equal and the
lengths agree the entries are equal; otherwise extend each exhausted name
with a virtual slash byte when its entry is a directory (none otherwise)
and compare the two optional next bytes. -/
def compare_tree_entry_bytes_builder (a b : TreeEntryBytesBuilder) : Ordering :=
  let afn := a.name
  let bfn := b.name
  let commonLen := min afn.length bfn.length
  match bytesCmp (afn.take commonLen) (bfn.take commonLen) with
  | Ordering.eq =>
    if afn.length = bfn.length then Ordering.eq
    else
      let c1 : Option Nat :=
        match afn[commonLen]? with
        | some c => some c
        | none => if a.isDirB then some 47 else none
      let c2 : Option Nat :=
        match bfn[commonLen]? with
        | some c => some c
        | none => if b.isDirB then some 47 else none
      optByteCmp c1 c2
  | o => o

/-- The ordering rule as the specification words it: raw name bytes
lexicographically up to the shorter length; equal prefixes of equal length
compare equal; with unequal lengths the shorter name is extended by one
virtual slash byte (47) when it belongs to a Directory entry and is
compared against the next actual byte of the longer name, and with no
virtual byte the shorter name orders before any actual next byte. -/
def specCompareEntries (a b : TreeEntryBytesBuilder) : Ordering :=
  let n := min a.name.length b.name.length
  if a.name.take n = b.name.take n then
    if a.name.length = b.name.length then Ordering.eq
    else if a.name.length < b.name.length then
      if a.mode = TreeEntryMode.directory then compare 47 (b.name.getD n 0)
      else Ordering.lt
    else
      if b.mode = TreeEntryMode.directory then compare (a.name.getD n 0) 47
      else Ordering.gt
  else bytesCmp (a.name.take n) (b.name.take n)

/-! ## Tree decoder (build_tree, src/tree.rs lines 185 to 229) -/

/-- The parsed tree entry of src/tree.rs: mode, name and the hex-encoded
child digest string. -/
structure TreeEntry where
  mode : TreeEntryMode
  name : List Nat
  sha : List Nat
deriving DecidableEq

/-- Errors returned (as anyhow errors) by build_tree. -/
inductive TreeReadErr where
  | truncatedEntry
  | entryNotUtf8
  | malformedEntry
deriving DecidableEq

/-- Result of the build_tree entry loop.  The aborted constructor models
the two panics reachable there: the expect on CStr::from_bytes_with_nul and
the panic of the mode-string conversion. -/
inductive TreeParseResult where
  | ok (entries : List TreeEntry)
  | err (e : TreeReadErr)
  | aborted
deriving DecidableEq

/-- Fuel-indexed model of the build_tree entry loop on the decompressed
content of a tree object: read up to a nul, stop cleanly on a zero-length
read at an entry boundary, read exactly 20 raw digest bytes (truncation
error when fewer are available), then parse mode and name from the header
and append the entry.  One unit of fuel per loop iteration; every iteration
consumes at least one byte, so fuel equal to the stream length is always
enough (the zero-fuel equation is unreachable then). -/
def parseTreeFuel : Nat → List Nat → TreeParseResult
  | _, [] => TreeParseResult.ok []
  | 0, _ :: _ => TreeParseResult.ok []
  | f + 1, b :: bs =>
    let p := readUntilNul (b :: bs)
    if p.2.length < 20 then TreeParseResult.err TreeReadErr.truncatedEntry
    else
      match cstrFromBytesWithNul p.1 with
      | none => TreeParseResult.aborted
      | some headerBytes =>
        if isValidUtf8 headerBytes then
          match splitOnceSpace headerBytes with
          | none => TreeParseResult.err TreeReadErr.malformedEntry
          | some mn =>
            match treeEntryModeOfBytes mn.1 with
            | none => TreeParseResult.aborted
            | some m =>
              match parseTreeFuel f (p.2.drop 20) with
              | TreeParseResult.ok es =>
                TreeParseResult.ok
                  ({ mode := m, name := mn.2, sha := hexEncode (p.2.take 20) } :: es)
              | r => r
        else TreeParseResult.err TreeReadErr.entryNotUtf8

/-- The build_tree entry loop on a decompressed tree body. -/
def parseTree (bytes : List Nat) : TreeParseResult :=
  parseTreeFuel bytes.length bytes

/-- The binary form one entry contributes to a tree object body (matching
to_raw_bytes): mode string, space, name, nul, then the 20 raw hash bytes. -/
def writeTreeEntryBytes (m : TreeEntryMode) (name : List Nat) (h : List Nat) : List Nat :=
  modeWriteBytes m ++ 32 :: (name ++ 0 :: h)

/-- A raw (stored) tree entry as a triple of mode, name bytes and the 20
raw digest bytes. -/
def rawEntryBytes (e : TreeEntryMode × List Nat × List Nat) : List Nat :=
  writeTreeEntryBytes e.1 e.2.1 e.2.2

/-- The stored body of a tree object: the concatenation of the binary
forms of its entries, with no count or length field. -/
def treeBodyBytes (entries : List (TreeEntryMode × List Nat × List Nat)) : List Nat :=
  (entries.map rawEntryBytes).flatten

/-- The TreeEntry build_tree produces for a stored entry: same mode and
name, digest bytes hex-encoded. -/
def decodedEntry (e : TreeEntryMode × List Nat × List Nat) : TreeEntry :=
  { mode := e.1, name := e.2.1, sha := hexEncode e.2.2 }

/-- Well-formedness of a stored entry: a name free of nul bytes, a valid
UTF-8 header and exactly 20 digest bytes. -/
def rawEntryWf (e : TreeEntryMode × List Nat × List Nat) : Prop :=
  (∀ x ∈ e.2.1, x ≠ 0) ∧ isValidUtf8 (modeWriteBytes e.1 ++ 32 :: e.2.1) = true ∧
    e.2.2.length = 20

/-! ## Tree assembler (write_tree_for, src/tree.rs lines 231 to 277) -/

/-- A filesystem subtree as the assembler observes it: leaves carry the
mode derived from metadata (never Directory) and the file content;
directories carry named children. -/
inductive FSNode where
  | file (mode : TreeEntryMode) (content : List Nat)
  | dir (children : List (List Nat × FSNode))

mutual

/-- Structural size of a filesystem node, used as the fuel bound for the
assembler. -/
def fsizeNode : FSNode → Nat
  | FSNode.file _ _ => 1
  | FSNode.dir cs => 1 + fsizeList cs

/-- Structural size of a children list. -/
def fsizeList : List (List Nat × FSNode) → Nat
  | [] => 1
  | p :: rest => 1 + fsizeNode p.2 + fsizeList rest

end

/-- Insertion of one element into a list sorted by a comparator, keeping
every element ordered not-greater before it. -/
def insertByCmp {α : Type} (cmp : α → α → Ordering) (x : α) : List α → List α
  | [] => [x]
  | y :: ys =>
    match cmp x y with
    | Ordering.gt => y :: insertByCmp cmp x ys
    | _ => x :: y :: ys

/-- Comparator sort (model of the sort_unstable_by call: some ordering of
the entries consistent with the comparator). -/
def sortByCmp {α : Type} (cmp : α → α → Ordering) : List α → List α
  | [] => []
  | x :: xs => insertByCmp cmp x (sortByCmp cmp xs)

/-- The builder data the sort consults for a directory child: its mode is
Directory for a subdirectory and the metadata mode for a file. -/
def builderOf (p : List Nat × FSNode) : TreeEntryBytesBuilder :=
  { mode :=
      match p.2 with
      | FSNode.dir _ => TreeEntryMode.directory
      | FSNode.file m _ => m,
    name := p.1 }

/-- The comparator applied to two directory children during the sort. -/
def entryPairCmp (a b : List Nat × FSNode) : Ordering :=
  compare_tree_entry_bytes_builder (builderOf a) (builderOf b)

/-- The entry-emission loop of write_tree_for over the sorted children,
parameterised by the recursive call used for subdirectories: skip the
metadata-directory entry, recurse into subdirectories omitting those whose
subtree is empty (none), hash file children as blobs, and concatenate the
binary entry forms. -/
def treeChunksWith (recurse : List (List Nat × FSNode) → Option (List Nat))
    (hashFn : List Nat → List Nat) (dotGitName : List Nat) :
    List (List Nat × FSNode) → List Nat
  | [] => []
  | (name, FSNode.dir cs) :: rest =>
    (if name = dotGitName then []
     else
       match recurse cs with
       | none => []
       | some h => writeTreeEntryBytes TreeEntryMode.directory name h)
    ++ treeChunksWith recurse hashFn dotGitName rest
  | (name, FSNode.file m content) :: rest =>
    (if name = dotGitName then []
     else
       writeTreeEntryBytes m name
         (hashFn (objectWrite ObjectType.blob content.length content)))
    ++ treeChunksWith recurse hashFn dotGitName rest

/-- Fuel-indexed model of write_tree_for on the children of one directory,
with the digest function (SHA-1 over the encoded object, an external
collaborator) abstracted as hashFn: sort the children with the comparator,
emit the surviving entries, and return none for an empty body or the digest
of the tree object otherwise.  Fuel bounds the directory nesting depth;
sizeOf the children list always suffices. -/
def writeTreeForFuel (hashFn : List Nat → List Nat) (dotGitName : List Nat) :
    Nat → List (List Nat × FSNode) → Option (List Nat)
  | 0, _ => none
  | f + 1, children =>
    let treeObject :=
      treeChunksWith (writeTreeForFuel hashFn dotGitName f) hashFn dotGitName
        (sortByCmp entryPairCmp children)
    if treeObject = [] then none
    else some (hashFn (objectWrite ObjectType.tree treeObject.length treeObject))

/-- Model of write_tree_for applied to the children of a directory. -/
def writeTreeFor (hashFn : List Nat → List Nat) (dotGitName : List Nat)
    (children : List (List Nat × FSNode)) : Option (List Nat) :=
  writeTreeForFuel hashFn dotGitName (fsizeList children) children

/-- A child contributes no entry to its parent tree exactly when it is the
metadata directory or a subdirectory whose recursive assembly is empty. -/
def childElided (hashFn : List Nat → List Nat) (dotGitName : List Nat)
    (p : List Nat × FSNode) : Bool :=
  p.1 = dotGitName ||
    (match p.2 with
     | FSNode.dir cs => (writeTreeFor hashFn dotGitName cs).isNone
     | FSNode.file _ _ => false)

/-- A children list consisting only of (arbitrarily nested) directories
with no file anywhere. -/
def onlyEmptyDirs : List (List Nat × FSNode) → Bool
  | [] => true
  | (_, FSNode.dir cs) :: rest => onlyEmptyDirs cs && onlyEmptyDirs rest
  | (_, FSNode.file _ _) :: _ => false

/-! ## Object store write path (write_to_objects, src/object.rs lines 130
to 148) -/

/-- One filesystem operation performed by write_to_objects. -/
inductive FsOp where
  | createFile (path : List Nat)
  | writeAll (path : List Nat) (bytes : List Nat)
  | createDirAll (path : List Nat)
  | rename (src dst : List Nat)
deriving DecidableEq

/-- The temporary file path of write_to_objects: the fixed relative path
named temporary (bytes of that nine-letter word), the same for every
invocation. -/
def tmpName : List Nat := [116, 101, 109, 112, 111, 114, 97, 114, 121]

/-- The final object path: root, then .git/objects/, then the first two hex
digest bytes as the fan-out directory, a slash, and the remaining digest
bytes. -/
def objectPathOf (root hashHex : List Nat) : List Nat :=
  root ++ 47 :: ([46, 103, 105, 116, 47, 111, 98, 106, 101, 99, 116, 115, 47] ++
    (hashHex.take 2 ++ 47 :: hashHex.drop 2))

/-- The fan-out directory created before the rename. -/
def fanoutDirOf (root hashHex : List Nat) : List Nat :=
  root ++ 47 :: ([46, 103, 105, 116, 47, 111, 98, 106, 101, 99, 116, 115, 47] ++
    (hashHex.take 2 ++ [47]))

/-- The sequence of filesystem operations write_to_objects performs for an
object whose compressed bytes and hex digest are given: create the fixed
temporary file, stream the compressed bytes into it, create the fan-out
directory, and finally rename the temporary file onto the digest-derived
path. -/
def writeToObjectsTrace (root hashHex compressedBytes : List Nat) : List FsOp :=
  [FsOp.createFile tmpName,
   FsOp.writeAll tmpName compressedBytes,
   FsOp.createDirAll (fanoutDirOf root hashHex),
   FsOp.rename tmpName (objectPathOf root hashHex)]

/-- The path of the temporary file a given invocation writes through: the
target path of the first create operation of its trace. -/
def traceTmpPath (root hashHex compressedBytes : List Nat) : Option (List Nat) :=
  match writeToObjectsTrace root hashHex compressedBytes with
  | FsOp.createFile p :: _ => some p
  | _ => none

/-! ## Commit builder (src/commit.rs) -/

/-- Outcomes of the commit function, one constructor per exit point of
src/commit.rs lines 7 to 48. -/
inductive CommitOutcome where
  | headReadError
  | detachedHead
  | refReadError
  | writeTreeError
  | nothingToCommit
  | commitTreeError
  | commitTreeNone
  | refWriteError
  | committed (hash : List Nat)
deriving DecidableEq

/-- Model of str::strip_prefix with the ref-colon-space marker: returns the
bytes after the five marker bytes when the content starts with them. -/
def refMarkerTarget : List Nat → Option (List Nat)
  | 114 :: 101 :: 102 :: 58 :: 32 :: rest => some rest
  | _ => none

/-- Whether a byte is ASCII whitespace (the bytes str::trim strips at the
ends for ASCII content). -/
def isWsByte (b : Nat) : Bool :=
  b = 32 || b = 9 || b = 10 || b = 11 || b = 12 || b = 13

/-- Model of str::trim for ASCII content: drop whitespace bytes from both
ends. -/
def trimBytes (s : List Nat) : List Nat :=
  ((s.dropWhile isWsByte).reverse.dropWhile isWsByte).reverse

/-- The external state and collaborator outcomes the commit function
consumes: the HEAD file content (none when unreadable), the ref store
keyed by ref name, the outcome of write_tree_for, the outcome of
commit_tree as a function of the parent passed to it, and whether the final
ref write succeeds. -/
structure CommitEnv where
  headContent : Option (List Nat)
  refContent : List Nat → Option (List Nat)
  treeResult : Except Unit (Option (List Nat))
  commitTreeResult : Option (List Nat) → Except Unit (Option (List Nat))
  refWriteOk : Bool

/-- What a run of commit produced: its outcome, the successful branch
pointer writes it performed (ref name and new content), and the parent
argument commit_tree was invoked with, when it was invoked. -/
structure CommitRun where
  outcome : CommitOutcome
  refWrites : List (List Nat × List Nat)
  parentArg : Option (Option (List Nat))
deriving DecidableEq

/-- Model of commit (src/commit.rs lines 7 to 48): read HEAD (error when
unreadable), require the symbolic-ref marker (detached head otherwise),
read the ref file (error when unreadable), trim it into the parent hash,
assemble the tree (nothing to commit when it is empty), call commit_tree
with Some parent, and only on success overwrite the branch pointer with
the hex digest. -/
def commitRun (env : CommitEnv) : CommitRun :=
  match env.headContent with
  | none => { outcome := CommitOutcome.headReadError, refWrites := [], parentArg := none }
  | some head =>
    match refMarkerTarget head with
    | none => { outcome := CommitOutcome.detachedHead, refWrites := [], parentArg := none }
    | some target =>
      let headRef := trimBytes target
      match env.refContent headRef with
      | none => { outcome := CommitOutcome.refReadError, refWrites := [], parentArg := none }
      | some parentRaw =>
        let parentHash := trimBytes parentRaw
        match env.treeResult with
        | Except.error _ =>
          { outcome := CommitOutcome.writeTreeError, refWrites := [], parentArg := none }
        | Except.ok none =>
          { outcome := CommitOutcome.nothingToCommit, refWrites := [], parentArg := none }
        | Except.ok (some _) =>
          match env.commitTreeResult (some parentHash) with
          | Except.error _ =>
            { outcome := CommitOutcome.commitTreeError, refWrites := [],
              parentArg := some (some parentHash) }
          | Except.ok none =>
            { outcome := CommitOutcome.commitTreeNone, refWrites := [],
              parentArg := some (some parentHash) }
          | Except.ok (some commitHash) =>
            if env.refWriteOk then
              { outcome := CommitOutcome.committed commitHash,
                refWrites := [(headRef, hexEncode commitHash)],
                parentArg := some (some parentHash) }
            else
              { outcome := CommitOutcome.refWriteError, refWrites := [],
                parentArg := some (some parentHash) }

/-! ## Lemmas about the byte-stream utilities -/

theorem readUntilNul_append (a b : List Nat) (ha : ∀ x ∈ a, x ≠ 0) :
    readUntilNul (a ++ 0 :: b) = (a ++ [0], b) := by
  induction a with
  | nil => simp [readUntilNul]
  | cons x xs ih =>
    have hx : x ≠ 0 := ha x (by simp)
    have hxs : ∀ y ∈ xs, y ≠ 0 := fun y hy => ha y (by simp [hy])
    simp [readUntilNul, hx, ih hxs]

theorem readUntilNul_no_nul (l : List Nat) (hl : ∀ x ∈ l, x ≠ 0) :
    readUntilNul l = (l, []) := by
  induction l with
  | nil => simp [readUntilNul]
  | cons x xs ih =>
    have hx : x ≠ 0 := hl x (by simp)
    have hxs : ∀ y ∈ xs, y ≠ 0 := fun y hy => hl y (by simp [hy])
    simp [readUntilNul, hx, ih hxs]

theorem readUntilNul_length (l : List Nat) :
    (readUntilNul l).1.length + (readUntilNul l).2.length = l.length := by
  induction l with
  | nil => simp [readUntilNul]
  | cons x xs ih =>
    by_cases hx : x = 0
    · simp [readUntilNul, hx]
      omega
    · simp [readUntilNul, hx]
      omega

theorem readUntilNul_fst_nil_iff (l : List Nat) :
    (readUntilNul l).1 = [] ↔ l = [] := by
  cases l with
  | nil => simp [readUntilNul]
  | cons x xs =>
    constructor
    · intro h
      by_cases hx : x = 0
      · simp [readUntilNul, hx] at h
      · simp [readUntilNul, hx] at h
    · intro h
      exact absurd h (by simp)

theorem cstr_append_nul (a : List Nat) (ha : ∀ x ∈ a, x ≠ 0) :
    cstrFromBytesWithNul (a ++ [0]) = some a := by
  have hall : a.all (fun b => b != 0) = true := by
    rw [List.all_eq_true]
    intro x hx
    simpa using ha x hx
  simp [cstrFromBytesWithNul, hall]

theorem cstr_no_nul (l : List Nat) (hl : ∀ x ∈ l, x ≠ 0) :
    cstrFromBytesWithNul l = none := by
  rcases hrev : l.reverse with _ | ⟨a, t⟩
  · rw [cstrFromBytesWithNul, hrev]
  · have ha : a ∈ l := by rw [← List.mem_reverse, hrev]; simp
    have hane : a ≠ 0 := hl a ha
    obtain ⟨k, hk⟩ := Nat.exists_eq_succ_of_ne_zero hane
    rw [cstrFromBytesWithNul, hrev, hk]
    rfl

theorem isValidUtf8Fuel_ascii (f : Nat) :
    ∀ l : List Nat, l.length ≤ f → (∀ x ∈ l, x ≤ 127) → isValidUtf8Fuel f l = true := by
  induction f with
  | zero =>
    intro l hl _
    cases l with
    | nil => rfl
    | cons b bs => simp at hl
  | succ f ih =>
    intro l hl ha
    cases l with
    | nil => rfl
    | cons b bs =>
      have hb : b ≤ 127 := ha b (by simp)
      have hstep : utf8Step (b :: bs) = some bs := by simp [utf8Step, hb]
      have hlen : bs.length ≤ f := by simp at hl; omega
      have hbs : ∀ y ∈ bs, y ≤ 127 := fun y hy => ha y (by simp [hy])
      simp only [isValidUtf8Fuel, hstep]
      exact ih bs hlen hbs

theorem isValidUtf8_of_ascii (l : List Nat) (hl : ∀ x ∈ l, x ≤ 127) :
    isValidUtf8 l = true :=
  isValidUtf8Fuel_ascii l.length l (Nat.le_refl _) hl

theorem splitOnceSpace_append (a b : List Nat) (ha : ∀ x ∈ a, x ≠ 32) :
    splitOnceSpace (a ++ 32 :: b) = some (a, b) := by
  induction a with
  | nil => simp [splitOnceSpace]
  | cons x xs ih =>
    have hx : x ≠ 32 := ha x (by simp)
    have hxs : ∀ y ∈ xs, y ≠ 32 := fun y hy => ha y (by simp [hy])
    simp [splitOnceSpace, hx, ih hxs]

/-! ## Decimal rendering and parsing lemmas -/

theorem decimalDigitsAux_lt_ten (n : Nat) : ∀ d ∈ decimalDigitsAux n, d < 10 := by
  induction n using Nat.strong_induction_on with
  | _ n ih =>
    cases n with
    | zero => simp [decimalDigitsAux]
    | succ m =>
      rw [decimalDigitsAux]
      intro d hd
      rcases List.mem_cons.mp hd with h | h
      · subst h; exact Nat.mod_lt _ (by omega)
      · exact ih ((m + 1) / 10) (Nat.div_lt_self (Nat.succ_pos m) (by omega)) d h

theorem decimalDigitsAux_foldl (n : Nat) :
    ((decimalDigitsAux n).reverse).foldl (fun a d => a * 10 + d) 0 = n := by
  induction n using Nat.strong_induction_on with
  | _ n ih =>
    cases n with
    | zero => simp [decimalDigitsAux]
    | succ m =>
      rw [decimalDigitsAux]
      rw [List.reverse_cons, List.foldl_append]
      rw [ih ((m + 1) / 10) (Nat.div_lt_self (Nat.succ_pos m) (by omega))]
      simp only [List.foldl_cons, List.foldl_nil]
      omega

theorem decimalDigitsAux_ne_nil (n : Nat) (hn : n ≠ 0) : decimalDigitsAux n ≠ [] := by
  cases n with
  | zero => exact absurd rfl hn
  | succ m => rw [decimalDigitsAux]; simp

theorem natToDecimal_bounds (n : Nat) : ∀ d ∈ natToDecimal n, 48 ≤ d ∧ d ≤ 57 := by
  intro d hd
  by_cases hn : n = 0
  · subst hn; simp [natToDecimal] at hd; omega
  · simp only [natToDecimal, if_neg hn, List.mem_map, List.mem_reverse] at hd
    obtain ⟨x, hx, hdx⟩ := hd
    have := decimalDigitsAux_lt_ten n x hx
    omega

theorem natToDecimal_ne_nil (n : Nat) : natToDecimal n ≠ [] := by
  by_cases hn : n = 0
  · subst hn; simp [natToDecimal]
  · simp only [natToDecimal, if_neg hn]
    simpa using decimalDigitsAux_ne_nil n hn

theorem parseU64_natToDecimal (n : Nat) (hn : n < 2 ^ 64) :
    parseU64 (natToDecimal n) = some n := by
  obtain ⟨h, t, hht⟩ := List.exists_cons_of_ne_nil (natToDecimal_ne_nil n)
  have hhd : 48 ≤ h ∧ h ≤ 57 := natToDecimal_bounds n h (by rw [hht]; simp)
  have hstrip : plusStripped (natToDecimal n) = natToDecimal n := by
    rw [hht, plusStripped]
    simp only [if_neg (by omega : ¬ h = 43)]
  have hempty : (natToDecimal n).isEmpty = false := by rw [hht]; rfl
  have hall : (natToDecimal n).all (fun b => 48 ≤ b && b ≤ 57) = true := by
    rw [List.all_eq_true]
    intro x hx
    have := natToDecimal_bounds n x hx
    simp only [Bool.and_eq_true, decide_eq_true_eq]
    omega
  have hfold : (natToDecimal n).foldl (fun acc b => acc * 10 + (b - 48)) 0 = n := by
    by_cases h0 : n = 0
    · subst h0; rfl
    · simp only [natToDecimal, if_neg h0, List.foldl_map, Nat.add_sub_cancel]
      exact decimalDigitsAux_foldl n
  simp only [parseU64, hstrip, hempty, Bool.false_eq_true, if_false, hall, if_true, hfold,
    if_pos hn]

/-! ## Facts about the object type bytes -/

theorem objectTypeOfBytes_typeBytes (t : ObjectType) :
    objectTypeOfBytes t.typeBytes = some t := by
  cases t <;> rfl

theorem typeBytes_ascii (t : ObjectType) :
    ∀ x ∈ t.typeBytes, x ≤ 127 ∧ x ≠ 0 ∧ x ≠ 32 := by
  cases t <;> decide

/-- Helper: Object::read on a stream whose header part (before the first
nul) is known, reduced to the header-processing chain. -/
theorem objectRead_append (hdr c : List Nat) (h0 : ∀ x ∈ hdr, x ≠ 0) :
    objectRead (hdr ++ 0 :: c) =
      (if isValidUtf8 hdr then
        match splitOnceSpace hdr with
        | none => ReadResult.err ReadErr.malformedHeader
        | some ts =>
          match objectTypeOfBytes ts.1 with
          | none => ReadResult.err ReadErr.unknownType
          | some t =>
            match parseU64 ts.2 with
            | none => ReadResult.err ReadErr.malformedHeader
            | some size => ReadResult.ok t size (c.take size)
      else ReadResult.err ReadErr.malformedHeader) := by
  have h1 := readUntilNul_append hdr c h0
  have h2 := cstr_append_nul hdr h0
  simp only [objectRead, h1, h2]

/-- Helper: Object::read of the logical stream that Object::write produces,
for an arbitrary declared size: the header parses back, and the content is
the remaining stream limited to exactly the declared size. -/
theorem objectRead_objectWrite (t : ObjectType) (s : Nat) (c : List Nat) (hs : s < 2 ^ 64) :
    objectRead (objectWrite t s c) = ReadResult.ok t s (c.take s) := by
  have hhdr : ∀ x ∈ t.typeBytes ++ 32 :: natToDecimal s, x ≠ 0 := by
    intro x hx
    rcases List.mem_append.mp hx with h | h
    · exact (typeBytes_ascii t x h).2.1
    · rcases List.mem_cons.mp h with h | h
      · omega
      · have := natToDecimal_bounds s x h; omega
  have hascii : ∀ x ∈ t.typeBytes ++ 32 :: natToDecimal s, x ≤ 127 := by
    intro x hx
    rcases List.mem_append.mp hx with h | h
    · exact (typeBytes_ascii t x h).1
    · rcases List.mem_cons.mp h with h | h
      · omega
      · have := natToDecimal_bounds s x h; omega
  have hshape : objectWrite t s c = (t.typeBytes ++ 32 :: natToDecimal s) ++ 0 :: c := by
    simp [objectWrite]
  have h3 : isValidUtf8 (t.typeBytes ++ 32 :: natToDecimal s) = true :=
    isValidUtf8_of_ascii _ hascii
  have h4 : splitOnceSpace (t.typeBytes ++ 32 :: natToDecimal s) =
      some (t.typeBytes, natToDecimal s) :=
    splitOnceSpace_append _ _ (fun x hx => (typeBytes_ascii t x hx).2.2)
  rw [hshape, objectRead_append _ _ hhdr, if_pos h3, h4]
  simp only [objectTypeOfBytes_typeBytes, parseU64_natToDecimal s hs]

/-- Helper: cat_file on a stream whose header part is known. -/
theorem catFile_append (hdr c : List Nat) (h0 : ∀ x ∈ hdr, x ≠ 0) :
    catFile (hdr ++ 0 :: c) =
      (if isValidUtf8 hdr then
        match splitOnceSpace hdr with
        | none => CatResult.errHeader
        | some ts =>
          if catTypeOk ts.1 then
            match parseU64 ts.2 with
            | none => CatResult.errSize
            | some size =>
              if (c.take size).length = size then CatResult.ok (c.take size)
              else CatResult.sizeMismatch size (c.take size).length
          else CatResult.errUnknownType
      else CatResult.errHeader) := by
  have h1 := readUntilNul_append hdr c h0
  have h2 := cstr_append_nul hdr h0
  simp only [catFile, h1, h2]

/-- Helper: cat_file on the logical stream of a blob object with declared
size s and actual content c: a size-mismatch error exactly when the content
is shorter than declared, and silent truncation otherwise. -/
theorem catFile_objectWrite_blob (s : Nat) (c : List Nat) (hs : s < 2 ^ 64) :
    catFile (objectWrite ObjectType.blob s c) =
      (if c.length < s then CatResult.sizeMismatch s c.length
       else CatResult.ok (c.take s)) := by
  have hhdr : ∀ x ∈ ObjectType.blob.typeBytes ++ 32 :: natToDecimal s, x ≠ 0 := by
    intro x hx
    rcases List.mem_append.mp hx with h | h
    · exact (typeBytes_ascii ObjectType.blob x h).2.1
    · rcases List.mem_cons.mp h with h | h
      · omega
      · have := natToDecimal_bounds s x h; omega
  have hascii : ∀ x ∈ ObjectType.blob.typeBytes ++ 32 :: natToDecimal s, x ≤ 127 := by
    intro x hx
    rcases List.mem_append.mp hx with h | h
    · exact (typeBytes_ascii ObjectType.blob x h).1
    · rcases List.mem_cons.mp h with h | h
      · omega
      · have := natToDecimal_bounds s x h; omega
  have hshape : objectWrite ObjectType.blob s c =
      (ObjectType.blob.typeBytes ++ 32 :: natToDecimal s) ++ 0 :: c := by
    simp [objectWrite]
  have h3 : isValidUtf8 (ObjectType.blob.typeBytes ++ 32 :: natToDecimal s) = true :=
    isValidUtf8_of_ascii _ hascii
  have h4 : splitOnceSpace (ObjectType.blob.typeBytes ++ 32 :: natToDecimal s) =
      some (ObjectType.blob.typeBytes, natToDecimal s) :=
    splitOnceSpace_append _ _ (fun x hx => (typeBytes_ascii ObjectType.blob x hx).2.2)
  have htype : catTypeOk ObjectType.blob.typeBytes = true := rfl
  rw [hshape, catFile_append _ _ hhdr, if_pos h3, h4]
  simp only [htype, if_true, parseU64_natToDecimal s hs]
  rw [List.length_take]
  by_cases hlen : c.length < s
  · rw [if_neg (by omega), if_pos hlen]
    congr 1
    omega
  · rw [if_pos (by omega), if_neg hlen]

/-! ## Claim C3: codec round trip -/

/-- C3: for every object type and every content byte sequence, including
the empty one, decoding the logical stream produced by encoding yields back
the same type, a declared size equal to the content length, and a content
stream of exactly the original bytes: readers are limited to the declared
size, so nothing past it (no trailing compressor bytes) is ever seen. -/
theorem objectCodec_roundTrip (t : ObjectType) (c : List Nat) (hc : c.length < 2 ^ 64) :
    objectRead (objectWrite t c.length c) = ReadResult.ok t c.length c := by
  rw [objectRead_objectWrite t c.length c hc, List.take_length]

/-- Witness for C3 at a concrete blob with two content bytes. -/
theorem objectCodec_roundTrip_witness :
    ([104, 105] : List Nat).length < 2 ^ 64 ∧
      objectRead (objectWrite ObjectType.blob ([104, 105] : List Nat).length [104, 105]) =
        ReadResult.ok ObjectType.blob ([104, 105] : List Nat).length [104, 105] :=
  ⟨by decide, objectCodec_roundTrip ObjectType.blob [104, 105] (by decide)⟩

/-! ## Claim C4: size mismatch handling on read -/

/-- C4 counterexample: an object whose actual content (five bytes) is
longer than its declared size (three) is read back without any error:
Object::read returns the truncated content and cat_file succeeds on it, so
no SizeMismatch is reported for over-long content. -/
theorem objectRead_long_content_no_error_cex :
    objectRead (objectWrite ObjectType.blob 3 [104, 101, 108, 108, 111]) =
      ReadResult.ok ObjectType.blob 3 [104, 101, 108] ∧
    catFile (objectWrite ObjectType.blob 3 [104, 101, 108, 108, 111]) =
      CatResult.ok [104, 101, 108] := by
  constructor
  · simpa using objectRead_objectWrite ObjectType.blob 3 [104, 101, 108, 108, 111] (by decide)
  · simpa using catFile_objectWrite_blob 3 [104, 101, 108, 108, 111] (by decide)

/-- C4 (amended): Object::read itself performs no size check at all: it
returns the content limited to the declared size, silently truncating
over-long content and returning a short stream for under-long content.
The only size check lives in the cat-file operation, which errors exactly
when the available content is shorter than declared and silently truncates
when it is longer. -/
theorem objectRead_size_handling (s : Nat) (c : List Nat) (hs : s < 2 ^ 64) :
    objectRead (objectWrite ObjectType.blob s c) =
      ReadResult.ok ObjectType.blob s (c.take s) ∧
    (c.length < s →
      catFile (objectWrite ObjectType.blob s c) = CatResult.sizeMismatch s c.length) ∧
    (s ≤ c.length →
      catFile (objectWrite ObjectType.blob s c) = CatResult.ok (c.take s)) := by
  refine ⟨objectRead_objectWrite ObjectType.blob s c hs, ?_, ?_⟩
  · intro hlt
    rw [catFile_objectWrite_blob s c hs, if_pos hlt]
  · intro hge
    rw [catFile_objectWrite_blob s c hs, if_neg (by omega)]

/-- Witness for C4 at a concrete declared size three with two content
bytes. -/
theorem objectRead_size_handling_witness :
    (3 : Nat) < 2 ^ 64 ∧
      objectRead (objectWrite ObjectType.blob 3 [104, 101]) =
        ReadResult.ok ObjectType.blob 3 (List.take 3 [104, 101]) ∧
      catFile (objectWrite ObjectType.blob 3 [104, 101]) = CatResult.sizeMismatch 3 2 := by
  have h := objectRead_size_handling 3 [104, 101] (by decide)
  exact ⟨by decide, h.1, h.2.1 (by decide)⟩

/-! ## Claim C6: malformed header handling -/

/-- C6 counterexample: a decompressed stream with no nul byte (the header
bytes of a blob, cut before the nul) makes Object::read abort through the
expect on CStr::from_bytes_with_nul rather than return an error value. -/
theorem objectRead_no_nul_aborts_cex :
    objectRead [98, 108, 111, 98, 32, 51] = ReadResult.aborted := by
  have h1 : readUntilNul [98, 108, 111, 98, 32, 51] = ([98, 108, 111, 98, 32, 51], []) :=
    readUntilNul_no_nul _ (by decide)
  have h2 : cstrFromBytesWithNul [98, 108, 111, 98, 32, 51] = none :=
    cstr_no_nul _ (by decide)
  simp [objectRead, h1, h2]

/-- C6 (amended): when the decompressed stream has no nul byte Object::read
aborts with a panic (the expect), not a returned error; when a nul is
present but the pre-nul text is not valid UTF-8, or the size field does not
parse as u64, a malformed-header error is returned. -/
theorem objectRead_malformed_header :
    (∀ bytes : List Nat, (∀ x ∈ bytes, x ≠ 0) → objectRead bytes = ReadResult.aborted) ∧
    (∀ hdr rest : List Nat, (∀ x ∈ hdr, x ≠ 0) → isValidUtf8 hdr = false →
      objectRead (hdr ++ 0 :: rest) = ReadResult.err ReadErr.malformedHeader) ∧
    (∀ t : ObjectType, ∀ sb rest : List Nat, (∀ x ∈ sb, x ≠ 0) →
      isValidUtf8 (t.typeBytes ++ 32 :: sb) = true → parseU64 sb = none →
      objectRead (t.typeBytes ++ 32 :: (sb ++ 0 :: rest)) =
        ReadResult.err ReadErr.malformedHeader) := by
  refine ⟨?_, ?_, ?_⟩
  · intro bytes hb
    have h1 := readUntilNul_no_nul bytes hb
    have h2 := cstr_no_nul bytes hb
    simp [objectRead, h1, h2]
  · intro hdr rest h0 hbad
    rw [objectRead_append hdr rest h0, hbad]
    rfl
  · intro t sb rest hsb hutf hparse
    have h0 : ∀ x ∈ t.typeBytes ++ 32 :: sb, x ≠ 0 := by
      intro x hx
      rcases List.mem_append.mp hx with h | h
      · exact (typeBytes_ascii t x h).2.1
      · rcases List.mem_cons.mp h with h | h
        · omega
        · exact hsb x h
    have hshape : t.typeBytes ++ 32 :: (sb ++ 0 :: rest) =
        (t.typeBytes ++ 32 :: sb) ++ 0 :: rest := by simp
    have h4 : splitOnceSpace (t.typeBytes ++ 32 :: sb) = some (t.typeBytes, sb) :=
      splitOnceSpace_append _ _ (fun x hx => (typeBytes_ascii t x hx).2.2)
    rw [hshape, objectRead_append _ _ h0, if_pos hutf, h4]
    simp only [objectTypeOfBytes_typeBytes, hparse]

/-- Witness for C6 instantiating all three branches at concrete inputs: a
single non-nul byte, an invalid UTF-8 header, and a non-numeric size
field. -/
theorem objectRead_malformed_header_witness :
    objectRead [98] = ReadResult.aborted ∧
    objectRead ([255] ++ 0 :: []) = ReadResult.err ReadErr.malformedHeader ∧
    objectRead (ObjectType.blob.typeBytes ++ 32 :: ([120] ++ 0 :: [])) =
      ReadResult.err ReadErr.malformedHeader :=
  ⟨objectRead_malformed_header.1 [98] (by decide),
   objectRead_malformed_header.2.1 [255] [] (by decide) (by decide),
   objectRead_malformed_header.2.2 ObjectType.blob [120] [] (by decide) (by decide) (by decide)⟩

/-! ## Claim C1: the tree entry comparator -/

theorem bytesCmp_eq_iff : ∀ x y : List Nat, bytesCmp x y = Ordering.eq ↔ x = y := by
  intro x
  induction x with
  | nil => intro y; cases y <;> simp [bytesCmp]
  | cons a as ih =>
    intro y
    cases y with
    | nil => simp [bytesCmp]
    | cons b bs =>
      simp only [bytesCmp]
      cases hc : compare a b with
      | lt =>
        have hab : a < b := Nat.compare_eq_lt.mp hc
        constructor
        · intro h; simp at h
        · intro h; injection h with h1 h2; omega
      | eq =>
        have hab : a = b := Nat.compare_eq_eq.mp hc
        subst hab
        rw [ih bs]
        simp
      | gt =>
        have hab : b < a := Nat.compare_eq_gt.mp hc
        constructor
        · intro h; simp at h
        · intro h; injection h with h1 h2; omega

/-- Helper: the source comparator computes exactly the ordering rule as the
specification words it. -/
theorem comparator_eq_spec (a b : TreeEntryBytesBuilder) :
    compare_tree_entry_bytes_builder a b = specCompareEntries a b := by
  simp only [compare_tree_entry_bytes_builder, specCompareEntries]
  by_cases hpre :
      a.name.take (min a.name.length b.name.length) =
        b.name.take (min a.name.length b.name.length)
  · have hcmp : bytesCmp (a.name.take (min a.name.length b.name.length))
        (b.name.take (min a.name.length b.name.length)) = Ordering.eq :=
      (bytesCmp_eq_iff _ _).mpr hpre
    rw [hcmp, if_pos hpre]
    by_cases hlen : a.name.length = b.name.length
    · simp [hlen]
    · rw [if_neg hlen, if_neg hlen]
      rcases Nat.lt_or_ge a.name.length b.name.length with hab | hab
      · have h1 : a.name[min a.name.length b.name.length]? = none :=
          List.getElem?_eq_none (by omega)
        have hnb : min a.name.length b.name.length < b.name.length := by omega
        have h2 : b.name[min a.name.length b.name.length]? =
            some b.name[min a.name.length b.name.length] :=
          List.getElem?_eq_getElem hnb
        have h3 : b.name.getD (min a.name.length b.name.length) 0 =
            b.name[min a.name.length b.name.length] := by
          rw [List.getD_eq_getElem?_getD, h2]; rfl
        rw [if_pos hab, h1, h2, h3]
        by_cases hdir : a.mode = TreeEntryMode.directory
        · simp [TreeEntryBytesBuilder.isDirB, hdir, optByteCmp]
        · simp [TreeEntryBytesBuilder.isDirB, hdir, optByteCmp]
      · have hba : b.name.length < a.name.length := by omega
        have hnl : ¬ a.name.length < b.name.length := by omega
        have h1 : b.name[min a.name.length b.name.length]? = none :=
          List.getElem?_eq_none (by omega)
        have hna : min a.name.length b.name.length < a.name.length := by omega
        have h2 : a.name[min a.name.length b.name.length]? =
            some a.name[min a.name.length b.name.length] :=
          List.getElem?_eq_getElem hna
        have h3 : a.name.getD (min a.name.length b.name.length) 0 =
            a.name[min a.name.length b.name.length] := by
          rw [List.getD_eq_getElem?_getD, h2]; rfl
        rw [if_neg hnl, h1, h2, h3]
        by_cases hdir : b.mode = TreeEntryMode.directory
        · simp [TreeEntryBytesBuilder.isDirB, hdir, optByteCmp]
        · simp [TreeEntryBytesBuilder.isDirB, hdir, optByteCmp]
  · rw [if_neg hpre]
    cases hc : bytesCmp (a.name.take (min a.name.length b.name.length))
        (b.name.take (min a.name.length b.name.length)) with
    | lt => simp
    | eq => exact absurd ((bytesCmp_eq_iff _ _).mp hc) hpre
    | gt => simp

/-- C1: the source comparator orders two entries by the raw bytes of their
names lexicographically up to the shorter length, equal prefixes of equal
length compare equal, and on unequal lengths the shorter name is extended
by a virtual slash byte exactly when its entry is a Directory (with no
virtual byte the shorter name orders first); in particular a directory
named foo orders after a file named foo.txt, because the dot byte 46 is
below the slash byte 47. -/
theorem treeEntryComparator_spec :
    (∀ a b : TreeEntryBytesBuilder,
      compare_tree_entry_bytes_builder a b = specCompareEntries a b) ∧
    compare_tree_entry_bytes_builder
        { mode := TreeEntryMode.directory, name := [102, 111, 111] }
        { mode := TreeEntryMode.regularFile, name := [102, 111, 111, 46, 116, 120, 116] } =
      Ordering.gt ∧
    compare_tree_entry_bytes_builder
        { mode := TreeEntryMode.regularFile, name := [102, 111, 111, 46, 116, 120, 116] }
        { mode := TreeEntryMode.directory, name := [102, 111, 111] } =
      Ordering.lt :=
  ⟨comparator_eq_spec, by decide, by decide⟩

/-! ## Claim C5: the temporary file of the object store write path -/

/-- C5 counterexample: two invocations of write_to_objects for different
digests use the same temporary file path (the fixed relative path named
temporary), so the claimed per-invocation distinctness of the temporary
file fails. -/
theorem writeToObjects_shared_tmp_cex :
    traceTmpPath [114] [97, 98] [1] = traceTmpPath [114] [99, 100] [2] ∧
    ([97, 98] : List Nat) ≠ [99, 100] :=
  ⟨rfl, by decide⟩

/-- C5 (amended): write_to_objects writes the compressed bytes to one fixed
temporary path shared by every invocation (not a fresh one per invocation)
and only as its final operation renames that file onto the digest-derived
object path, after creating the fan-out directory. -/
theorem writeToObjects_trace_shape (root hashHex compressedBytes : List Nat) :
    traceTmpPath root hashHex compressedBytes = some tmpName ∧
    (writeToObjectsTrace root hashHex compressedBytes).getLast? =
      some (FsOp.rename tmpName (objectPathOf root hashHex)) ∧
    writeToObjectsTrace root hashHex compressedBytes =
      [FsOp.createFile tmpName, FsOp.writeAll tmpName compressedBytes,
       FsOp.createDirAll (fanoutDirOf root hashHex),
       FsOp.rename tmpName (objectPathOf root hashHex)] :=
  ⟨rfl, rfl, rfl⟩

/-! ## Claim C7: parent resolution during commit -/

/-- C7 counterexample: with a symbolic HEAD but an absent branch ref file
(no current tip), commit returns a ref-read failure instead of creating a
commit with no parent; commit_tree is never invoked. -/
theorem commit_missing_ref_fails_cex :
    commitRun
      { headContent := some [114, 101, 102, 58, 32, 109],
        refContent := fun _ => none,
        treeResult := Except.ok (some [1]),
        commitTreeResult := fun _ => Except.ok (some [2]),
        refWriteOk := true } =
      { outcome := CommitOutcome.refReadError, refWrites := [], parentArg := none } := rfl

/-- C7 (amended): commit fails with DetachedHead exactly when HEAD content
lacks the symbolic-ref marker; when the marker is present but the branch
ref file is unreadable (no current tip) the operation fails with a read
error rather than committing without a parent; and whenever commit_tree is
invoked, its parent argument is Some of the trimmed ref content, never
None. -/
theorem commit_parent_resolution (env : CommitEnv) :
    ((commitRun env).outcome = CommitOutcome.detachedHead ↔
      ∃ head, env.headContent = some head ∧ refMarkerTarget head = none) ∧
    (∀ head target, env.headContent = some head → refMarkerTarget head = some target →
      env.refContent (trimBytes target) = none →
      (commitRun env).outcome = CommitOutcome.refReadError) ∧
    (∀ p, (commitRun env).parentArg = some p →
      ∃ head target c, env.headContent = some head ∧ refMarkerTarget head = some target ∧
        env.refContent (trimBytes target) = some c ∧ p = some (trimBytes c)) := by
  refine ⟨?_, ?_, ?_⟩
  · cases henv : env.headContent with
    | none => simp [commitRun, henv]
    | some head =>
      cases hmark : refMarkerTarget head with
      | none => simp [commitRun, henv, hmark]
      | some target =>
        cases href : env.refContent (trimBytes target) with
        | none => simp [commitRun, henv, hmark, href]
        | some parentRaw =>
          cases htree : env.treeResult with
          | error e => simp [commitRun, henv, hmark, href, htree]
          | ok tr =>
            cases tr with
            | none => simp [commitRun, henv, hmark, href, htree]
            | some th =>
              cases hct : env.commitTreeResult (some (trimBytes parentRaw)) with
              | error e => simp [commitRun, henv, hmark, href, htree, hct]
              | ok cr =>
                cases cr with
                | none => simp [commitRun, henv, hmark, href, htree, hct]
                | some ch =>
                  by_cases hw : env.refWriteOk = true
                  · simp [commitRun, henv, hmark, href, htree, hct, hw]
                  · simp [commitRun, henv, hmark, href, htree, hct, hw]
  · intro head target hh hm hr
    simp [commitRun, hh, hm, hr]
  · intro p hp
    cases henv : env.headContent with
    | none => simp [commitRun, henv] at hp
    | some head =>
      cases hmark : refMarkerTarget head with
      | none => simp [commitRun, henv, hmark] at hp
      | some target =>
        cases href : env.refContent (trimBytes target) with
        | none => simp [commitRun, henv, hmark, href] at hp
        | some parentRaw =>
          refine ⟨head, target, parentRaw, rfl, hmark, href, ?_⟩
          cases htree : env.treeResult with
          | error e => simp [commitRun, henv, hmark, href, htree] at hp
          | ok tr =>
            cases tr with
            | none => simp [commitRun, henv, hmark, href, htree] at hp
            | some th =>
              cases hct : env.commitTreeResult (some (trimBytes parentRaw)) with
              | error e =>
                simp [commitRun, henv, hmark, href, htree, hct] at hp
                exact hp.symm
              | ok cr =>
                cases cr with
                | none =>
                  simp [commitRun, henv, hmark, href, htree, hct] at hp
                  exact hp.symm
                | some ch =>
                  by_cases hw : env.refWriteOk = true
                  · simp [commitRun, henv, hmark, href, htree, hct, hw] at hp
                    exact hp.symm
                  · simp [commitRun, henv, hmark, href, htree, hct, hw] at hp
                    exact hp.symm

/-- Witness for C7 applying the ref-read-failure branch at a concrete
environment with a symbolic HEAD and an empty ref store. -/
theorem commit_parent_resolution_witness :
    (commitRun
      { headContent := some [114, 101, 102, 58, 32, 104],
        refContent := fun _ => none,
        treeResult := Except.ok (some [3]),
        commitTreeResult := fun _ => Except.ok (some [4]),
        refWriteOk := true }).outcome = CommitOutcome.refReadError :=
  (commit_parent_resolution _).2.1 [114, 101, 102, 58, 32, 104] [104] rfl rfl rfl

/-! ## Claim C8: pointer update ordering during commit -/

/-- C8: the branch pointer is overwritten only after the commit object
write succeeded: every run either performs no ref write, or ends committed
with exactly one ref write carrying the new hex digest; an empty tree gives
the distinct nothing-to-commit outcome with no ref write; a failing
commit_tree gives an error with no ref write. -/
theorem commit_pointer_update_order (env : CommitEnv) :
    ((commitRun env).refWrites = [] ∨
      ∃ ch hr, (commitRun env).outcome = CommitOutcome.committed ch ∧
        (commitRun env).refWrites = [(hr, hexEncode ch)]) ∧
    (∀ head target c, env.headContent = some head → refMarkerTarget head = some target →
      env.refContent (trimBytes target) = some c → env.treeResult = Except.ok none →
      commitRun env =
        { outcome := CommitOutcome.nothingToCommit, refWrites := [], parentArg := none }) ∧
    (∀ head target c th, env.headContent = some head → refMarkerTarget head = some target →
      env.refContent (trimBytes target) = some c →
      env.treeResult = Except.ok (some th) →
      env.commitTreeResult (some (trimBytes c)) = Except.error () →
      commitRun env =
        { outcome := CommitOutcome.commitTreeError, refWrites := [],
          parentArg := some (some (trimBytes c)) }) := by
  refine ⟨?_, ?_, ?_⟩
  · cases henv : env.headContent with
    | none => simp [commitRun, henv]
    | some head =>
      cases hmark : refMarkerTarget head with
      | none => simp [commitRun, henv, hmark]
      | some target =>
        cases href : env.refContent (trimBytes target) with
        | none => simp [commitRun, henv, hmark, href]
        | some parentRaw =>
          cases htree : env.treeResult with
          | error e => simp [commitRun, henv, hmark, href, htree]
          | ok tr =>
            cases tr with
            | none => simp [commitRun, henv, hmark, href, htree]
            | some th =>
              cases hct : env.commitTreeResult (some (trimBytes parentRaw)) with
              | error e => simp [commitRun, henv, hmark, href, htree, hct]
              | ok cr =>
                cases cr with
                | none => simp [commitRun, henv, hmark, href, htree, hct]
                | some ch =>
                  by_cases hw : env.refWriteOk = true
                  · right
                    exact ⟨ch, trimBytes target,
                      by simp [commitRun, henv, hmark, href, htree, hct, hw],
                      by simp [commitRun, henv, hmark, href, htree, hct, hw]⟩
                  · simp [commitRun, henv, hmark, href, htree, hct, hw]
  · intro head target c hh hm hr ht
    simp [commitRun, hh, hm, hr, ht]
  · intro head target c th hh hm hr ht hct
    simp [commitRun, hh, hm, hr, ht, hct]

/-- Witness for C8 applying the nothing-to-commit branch at a concrete
environment whose tree assembly is empty. -/
theorem commit_pointer_update_order_witness :
    commitRun
      { headContent := some [114, 101, 102, 58, 32, 104],
        refContent := fun _ => some [97],
        treeResult := Except.ok none,
        commitTreeResult := fun _ => Except.ok (some [4]),
        refWriteOk := true } =
      { outcome := CommitOutcome.nothingToCommit, refWrites := [], parentArg := none } :=
  (commit_pointer_update_order _).2.1 [114, 101, 102, 58, 32, 104] [104] [97] rfl rfl rfl rfl

/-! ## Claims C9 and C10: the tree decoder -/

theorem modeWriteBytes_ascii (m : TreeEntryMode) :
    ∀ x ∈ modeWriteBytes m, x ≤ 127 ∧ x ≠ 0 ∧ x ≠ 32 := by
  cases m <;> decide

theorem treeEntryModeOfBytes_write (m : TreeEntryMode) :
    treeEntryModeOfBytes (modeWriteBytes m) = some m := by
  cases m <;> rfl

theorem parseTreeFuel_nil (f : Nat) : parseTreeFuel f [] = TreeParseResult.ok [] := by
  cases f <;> rfl

/-- Helper: one iteration of the build_tree loop on a stream whose header
part (nonempty and nul-free) is known. -/
theorem parseTreeFuel_step (f : Nat) (hdr rest : List Nat) (hne : hdr ≠ [])
    (h0 : ∀ x ∈ hdr, x ≠ 0) :
    parseTreeFuel (f + 1) (hdr ++ 0 :: rest) =
      (if rest.length < 20 then TreeParseResult.err TreeReadErr.truncatedEntry
       else
         if isValidUtf8 hdr then
           match splitOnceSpace hdr with
           | none => TreeParseResult.err TreeReadErr.malformedEntry
           | some mn =>
             match treeEntryModeOfBytes mn.1 with
             | none => TreeParseResult.aborted
             | some m =>
               match parseTreeFuel f (rest.drop 20) with
               | TreeParseResult.ok es =>
                 TreeParseResult.ok
                   ({ mode := m, name := mn.2, sha := hexEncode (rest.take 20) } :: es)
               | r => r
         else TreeParseResult.err TreeReadErr.entryNotUtf8) := by
  obtain ⟨d, hdr2, rfl⟩ := List.exists_cons_of_ne_nil hne
  have h1 := readUntilNul_append (d :: hdr2) rest h0
  have h2 := cstr_append_nul (d :: hdr2) h0
  simp only [List.cons_append] at h1 h2 ⊢
  simp only [parseTreeFuel, h1, h2]

/-- Helper: the build_tree loop consumes one well-formed stored entry and
continues on the remaining stream. -/
theorem parseTreeFuel_entry (f : Nat) (m : TreeEntryMode) (name sha tail : List Nat)
    (hname : ∀ x ∈ name, x ≠ 0)
    (hutf : isValidUtf8 (modeWriteBytes m ++ 32 :: name) = true)
    (hsha : sha.length = 20) :
    parseTreeFuel (f + 1) (writeTreeEntryBytes m name sha ++ tail) =
      (match parseTreeFuel f tail with
       | TreeParseResult.ok es =>
         TreeParseResult.ok ({ mode := m, name := name, sha := hexEncode sha } :: es)
       | r => r) := by
  have hshape : writeTreeEntryBytes m name sha ++ tail =
      (modeWriteBytes m ++ 32 :: name) ++ 0 :: (sha ++ tail) := by
    simp [writeTreeEntryBytes]
  have hne : modeWriteBytes m ++ 32 :: name ≠ [] := by
    cases m <;> simp [modeWriteBytes]
  have h0 : ∀ x ∈ modeWriteBytes m ++ 32 :: name, x ≠ 0 := by
    intro x hx
    rcases List.mem_append.mp hx with h | h
    · exact (modeWriteBytes_ascii m x h).2.1
    · rcases List.mem_cons.mp h with h | h
      · omega
      · exact hname x h
  have hsplit : splitOnceSpace (modeWriteBytes m ++ 32 :: name) =
      some (modeWriteBytes m, name) :=
    splitOnceSpace_append _ _ (fun x hx => (modeWriteBytes_ascii m x hx).2.2)
  have hlen20 : ¬ (sha ++ tail).length < 20 := by
    rw [List.length_append]; omega
  have htake : (sha ++ tail).take 20 = sha := by
    rw [← hsha]; exact List.take_left sha tail
  have hdrop : (sha ++ tail).drop 20 = tail := by
    rw [← hsha]; exact List.drop_left sha tail
  rw [hshape, parseTreeFuel_step f _ _ hne h0, if_neg hlen20, if_pos hutf, hsplit]
  simp only [treeEntryModeOfBytes_write, htake, hdrop]

/-- Helper: the build_tree loop parses a whole well-formed stored body
followed by any tail, yielding the stored entries in order in front of
whatever the tail parses to. -/
theorem parseTreeFuel_entries (entries : List (TreeEntryMode × List Nat × List Nat))
    (hwf : ∀ e ∈ entries, rawEntryWf e) :
    ∀ f tail, parseTreeFuel (f + entries.length) (treeBodyBytes entries ++ tail) =
      (match parseTreeFuel f tail with
       | TreeParseResult.ok es => TreeParseResult.ok (entries.map decodedEntry ++ es)
       | r => r) := by
  induction entries with
  | nil =>
    intro f tail
    simp only [treeBodyBytes, List.map_nil, List.flatten_nil, List.nil_append,
      List.length_nil, Nat.add_zero]
    cases hpt : parseTreeFuel f tail <;> simp
  | cons e es ih =>
    intro f tail
    obtain ⟨h1, h2, h3⟩ := hwf e (by simp)
    have hes : ∀ x ∈ es, rawEntryWf x := fun x hx => hwf x (by simp [hx])
    have hbody : treeBodyBytes (e :: es) ++ tail =
        writeTreeEntryBytes e.1 e.2.1 e.2.2 ++ (treeBodyBytes es ++ tail) := by
      simp [treeBodyBytes, rawEntryBytes]
    have hfuel : f + (e :: es).length = (f + es.length) + 1 := by
      simp [List.length_cons]; omega
    rw [hbody, hfuel, parseTreeFuel_entry (f + es.length) e.1 e.2.1 e.2.2 _ h1 h2 h3,
      ih hes f tail]
    cases hpt : parseTreeFuel f tail <;> simp [decodedEntry]

theorem treeBodyBytes_length_ge (entries : List (TreeEntryMode × List Nat × List Nat)) :
    entries.length ≤ (treeBodyBytes entries).length := by
  induction entries with
  | nil => simp [treeBodyBytes]
  | cons e es ih =>
    have hlen : 1 ≤ (rawEntryBytes e).length := by
      rcases e with ⟨m, nm, sh⟩
      cases m <;> simp [rawEntryBytes, writeTreeEntryBytes, modeWriteBytes]
    simp only [treeBodyBytes, List.map_cons, List.flatten_cons, List.length_append,
      List.length_cons] at ih ⊢
    omega

/-- Helper: an entry header followed by fewer than 20 digest bytes makes
the loop fail with the truncated-entry error. -/
theorem parseTreeFuel_truncated (g : Nat) (hdr short : List Nat)
    (h0 : ∀ x ∈ hdr, x ≠ 0) (hshort : short.length < 20) :
    parseTreeFuel (g + 1) (hdr ++ 0 :: short) =
      TreeParseResult.err TreeReadErr.truncatedEntry := by
  cases hdr with
  | nil =>
    simp [parseTreeFuel, readUntilNul, hshort]
  | cons d hdr2 =>
    rw [parseTreeFuel_step g _ _ (by simp) h0, if_pos hshort]

/-- C9: build_tree returns stored entries in exactly the stored order (a
well-formed stored body parses back to its entry list, in order, with the
loop stopping cleanly at the zero-length read on the entry boundary at
end-of-stream), and an entry whose nul terminator is followed by fewer
than 20 raw digest bytes fails with the truncated-entry error. -/
theorem buildTree_order_and_truncation
    (entries : List (TreeEntryMode × List Nat × List Nat))
    (hwf : ∀ e ∈ entries, rawEntryWf e) :
    parseTree (treeBodyBytes entries) = TreeParseResult.ok (entries.map decodedEntry) ∧
    (∀ hdr short : List Nat, (∀ x ∈ hdr, x ≠ 0) → short.length < 20 →
      parseTree (treeBodyBytes entries ++ (hdr ++ 0 :: short)) =
        TreeParseResult.err TreeReadErr.truncatedEntry) := by
  constructor
  · have hge := treeBodyBytes_length_ge entries
    have heq : parseTree (treeBodyBytes entries) =
        parseTreeFuel (((treeBodyBytes entries).length - entries.length) + entries.length)
          (treeBodyBytes entries ++ []) := by
      rw [List.append_nil]
      simp only [parseTree]
      congr 1
      omega
    rw [heq, parseTreeFuel_entries entries hwf _ [], parseTreeFuel_nil]
    simp
  · intro hdr short hh hs
    have hge := treeBodyBytes_length_ge entries
    have heq : parseTree (treeBodyBytes entries ++ (hdr ++ 0 :: short)) =
        parseTreeFuel
          ((((treeBodyBytes entries ++ (hdr ++ 0 :: short)).length - entries.length - 1) + 1) +
            entries.length)
          (treeBodyBytes entries ++ (hdr ++ 0 :: short)) := by
      simp only [parseTree]
      congr 1
      simp only [List.length_append, List.length_cons]
      omega
    rw [heq, parseTreeFuel_entries entries hwf _ _,
      parseTreeFuel_truncated _ hdr short hh hs]

/-- Witness for C9 with one stored regular-file entry and a truncated
second entry. -/
theorem buildTree_order_and_truncation_witness :
    parseTree (treeBodyBytes [(TreeEntryMode.regularFile, [97], List.replicate 20 0)]) =
      TreeParseResult.ok
        [{ mode := TreeEntryMode.regularFile, name := [97],
           sha := hexEncode (List.replicate 20 0) }] ∧
    parseTree (treeBodyBytes [(TreeEntryMode.regularFile, [97], List.replicate 20 0)] ++
        ([104] ++ 0 :: [5])) =
      TreeParseResult.err TreeReadErr.truncatedEntry := by
  have hwf : ∀ e ∈ [(TreeEntryMode.regularFile, ([97] : List Nat),
      List.replicate 20 (0 : Nat))], rawEntryWf e := by
    intro e he
    simp only [List.mem_singleton] at he
    subst he
    exact ⟨by decide, by decide, by decide⟩
  have h := buildTree_order_and_truncation
    [(TreeEntryMode.regularFile, [97], List.replicate 20 0)] hwf
  exact ⟨by simpa [decodedEntry] using h.1, h.2 [104] [5] (by decide) (by decide)⟩

/-- C10: the mode-string conversion is partial with a panic as its failure
branch: it recognises exactly the four known octal codes (the directory
one with or without its leading zero), and build_tree applied to a stored
entry carrying any other mode string aborts the program via that panic
instead of returning an error value. -/
theorem buildTree_unknown_mode_aborts (modeB name sha : List Nat)
    (hm0 : ∀ x ∈ modeB, x ≠ 0) (hm32 : ∀ x ∈ modeB, x ≠ 32)
    (hname : ∀ x ∈ name, x ≠ 0)
    (hutf : isValidUtf8 (modeB ++ 32 :: name) = true)
    (hmode : treeEntryModeOfBytes modeB = none)
    (hsha : sha.length = 20) :
    parseTree (modeB ++ 32 :: (name ++ 0 :: sha)) = TreeParseResult.aborted ∧
    (∀ s : List Nat, treeEntryModeOfBytes s = none ↔
      s ≠ [49, 48, 48, 54, 52, 52] ∧ s ≠ [49, 48, 48, 55, 53, 53] ∧
      s ≠ [49, 50, 48, 48, 48, 48] ∧ s ≠ [48, 52, 48, 48, 48, 48] ∧
      s ≠ [52, 48, 48, 48, 48]) := by
  constructor
  · have hshape : modeB ++ 32 :: (name ++ 0 :: sha) =
        (modeB ++ 32 :: name) ++ 0 :: sha := by simp
    have h0 : ∀ x ∈ modeB ++ 32 :: name, x ≠ 0 := by
      intro x hx
      rcases List.mem_append.mp hx with h | h
      · exact hm0 x h
      · rcases List.mem_cons.mp h with h | h
        · omega
        · exact hname x h
    have hne : modeB ++ 32 :: name ≠ [] := by simp
    have hsplit : splitOnceSpace (modeB ++ 32 :: name) = some (modeB, name) :=
      splitOnceSpace_append _ _ hm32
    have hlen20 : ¬ (sha : List Nat).length < 20 := by omega
    have heq : parseTree ((modeB ++ 32 :: name) ++ 0 :: sha) =
        parseTreeFuel
          ((((modeB ++ 32 :: name) ++ 0 :: sha).length - 1) + 1)
          ((modeB ++ 32 :: name) ++ 0 :: sha) := by
      simp only [parseTree]
      congr 1
      simp only [List.length_append, List.length_cons]
      omega
    rw [hshape, heq, parseTreeFuel_step _ _ _ hne h0, if_neg hlen20, if_pos hutf, hsplit]
    simp only [hmode]
  · intro s
    simp only [treeEntryModeOfBytes]
    by_cases h1 : s = [49, 48, 48, 54, 52, 52]
    · simp [h1]
    · by_cases h2 : s = [49, 48, 48, 55, 53, 53]
      · simp [h1, h2]
      · by_cases h3 : s = [49, 50, 48, 48, 48, 48]
        · simp [h1, h2, h3]
        · by_cases h4 : s = [48, 52, 48, 48, 48, 48] ∨ s = [52, 48, 48, 48, 48]
          · rcases h4 with h4 | h4 <;> simp [h1, h2, h3, h4]
          · push_neg at h4
            simp [h1, h2, h3, h4.1, h4.2]

/-- Witness for C10 at the concrete unknown mode string 123. -/
theorem buildTree_unknown_mode_aborts_witness :
    parseTree ([49, 50, 51] ++ 32 :: ([97] ++ 0 :: List.replicate 20 0)) =
      TreeParseResult.aborted :=
  (buildTree_unknown_mode_aborts [49, 50, 51] [97] (List.replicate 20 0)
    (by decide) (by decide) (by decide) (by decide) (by decide) (by decide)).1

/-! ## Claim C2: the tree assembler and empty-subtree elision -/

theorem mem_insertByCmp {α : Type} (cmp : α → α → Ordering) (x y : α) :
    ∀ l : List α, y ∈ insertByCmp cmp x l ↔ y = x ∨ y ∈ l := by
  intro l
  induction l with
  | nil => simp [insertByCmp]
  | cons z zs ih =>
    simp only [insertByCmp]
    cases cmp x z with
    | lt => simp [List.mem_cons]
    | eq => simp [List.mem_cons]
    | gt =>
      simp only [List.mem_cons, ih]
      tauto

theorem mem_sortByCmp {α : Type} (cmp : α → α → Ordering) (y : α) :
    ∀ l : List α, y ∈ sortByCmp cmp l ↔ y ∈ l := by
  intro l
  induction l with
  | nil => simp [sortByCmp]
  | cons x xs ih =>
    simp only [sortByCmp]
    rw [mem_insertByCmp]
    simp [ih]

theorem fsizeList_pos (l : List (List Nat × FSNode)) : 1 ≤ fsizeList l := by
  cases l with
  | nil => simp [fsizeList]
  | cons p rest => simp only [fsizeList]; omega

theorem fsizeNode_lt_of_mem :
    ∀ (l : List (List Nat × FSNode)) (p : List Nat × FSNode), p ∈ l →
      fsizeNode p.2 < fsizeList l := by
  intro l
  induction l with
  | nil => intro p hp; simp at hp
  | cons q rest ih =>
    intro p hp
    rcases List.mem_cons.mp hp with h | h
    · subst h; simp only [fsizeList]; omega
    · have := ih p h; simp only [fsizeList]; omega

theorem writeTreeEntryBytes_ne_nil (m : TreeEntryMode) (name h : List Nat) :
    writeTreeEntryBytes m name h ≠ [] := by
  cases m <;> simp [writeTreeEntryBytes, modeWriteBytes]

/-- Helper: the chunk loop only looks at the recursion function through
subdirectory children, so pointwise equal recursion functions give equal
bodies. -/
theorem treeChunksWith_congr (r1 r2 : List (List Nat × FSNode) → Option (List Nat))
    (hashFn : List Nat → List Nat) (dg : List Nat) :
    ∀ l, (∀ p ∈ l, ∀ cs, p.2 = FSNode.dir cs → r1 cs = r2 cs) →
      treeChunksWith r1 hashFn dg l = treeChunksWith r2 hashFn dg l := by
  intro l
  induction l with
  | nil => intro h; rfl
  | cons p rest ih =>
    intro h
    rcases p with ⟨name, node⟩
    cases node with
    | dir cs =>
      have h1 : r1 cs = r2 cs := h (name, FSNode.dir cs) (by simp) cs rfl
      simp only [treeChunksWith, h1]
      rw [ih (fun q hq => h q (by simp [hq]))]
    | file m content =>
      simp only [treeChunksWith]
      rw [ih (fun q hq => h q (by simp [hq]))]

/-- Helper: the assembler result does not depend on the fuel once the fuel
dominates the structural size. -/
theorem writeTreeForFuel_irrel (hashFn : List Nat → List Nat) (dg : List Nat) :
    ∀ f g children, fsizeList children ≤ f → fsizeList children ≤ g →
      writeTreeForFuel hashFn dg f children = writeTreeForFuel hashFn dg g children := by
  intro f
  induction f with
  | zero =>
    intro g children hf _
    have := fsizeList_pos children
    omega
  | succ f ih =>
    intro g children hf hg
    cases g with
    | zero =>
      have := fsizeList_pos children
      omega
    | succ g =>
      simp only [writeTreeForFuel]
      have hcongr : treeChunksWith (writeTreeForFuel hashFn dg f) hashFn dg
          (sortByCmp entryPairCmp children) =
          treeChunksWith (writeTreeForFuel hashFn dg g) hashFn dg
            (sortByCmp entryPairCmp children) := by
        apply treeChunksWith_congr
        intro p hp cs hdir
        have hpc : p ∈ children := (mem_sortByCmp _ _ _).mp hp
        have h1 : fsizeNode p.2 < fsizeList children := fsizeNode_lt_of_mem _ _ hpc
        have h2 : fsizeNode p.2 = 1 + fsizeList cs := by
          rw [hdir]; simp only [fsizeNode]
        exact ih g cs (by omega) (by omega)
      rw [hcongr]

/-- Helper: one unfolding of write_tree_for, with the recursion expressed
through write_tree_for itself. -/
theorem writeTreeFor_unfold (hashFn : List Nat → List Nat) (dg : List Nat)
    (children : List (List Nat × FSNode)) :
    writeTreeFor hashFn dg children =
      (if treeChunksWith (fun cs => writeTreeFor hashFn dg cs) hashFn dg
          (sortByCmp entryPairCmp children) = [] then none
       else
         some (hashFn (objectWrite ObjectType.tree
           (treeChunksWith (fun cs => writeTreeFor hashFn dg cs) hashFn dg
             (sortByCmp entryPairCmp children)).length
           (treeChunksWith (fun cs => writeTreeFor hashFn dg cs) hashFn dg
             (sortByCmp entryPairCmp children))))) := by
  obtain ⟨n, hn⟩ : ∃ n, fsizeList children = n + 1 := by
    have := fsizeList_pos children
    exact ⟨fsizeList children - 1, by omega⟩
  have hstep : writeTreeFor hashFn dg children = writeTreeForFuel hashFn dg (n + 1) children := by
    simp only [writeTreeFor]
    rw [hn]
  rw [hstep]
  simp only [writeTreeForFuel]
  have hcongr : treeChunksWith (writeTreeForFuel hashFn dg n) hashFn dg
      (sortByCmp entryPairCmp children) =
      treeChunksWith (fun cs => writeTreeFor hashFn dg cs) hashFn dg
        (sortByCmp entryPairCmp children) := by
    apply treeChunksWith_congr
    intro p hp cs hdir
    have hpc : p ∈ children := (mem_sortByCmp _ _ _).mp hp
    have h1 : fsizeNode p.2 < fsizeList children := fsizeNode_lt_of_mem _ _ hpc
    have h2 : fsizeNode p.2 = 1 + fsizeList cs := by
      rw [hdir]; simp only [fsizeNode]
    show writeTreeForFuel hashFn dg n cs = writeTreeFor hashFn dg cs
    simp only [writeTreeFor]
    exact writeTreeForFuel_irrel hashFn dg n (fsizeList cs) cs (by omega) (Nat.le_refl _)
  rw [hcongr]

/-- Helper: the emitted body of one directory is empty exactly when every
child is elided. -/
theorem treeChunksWith_nil_iff (hashFn : List Nat → List Nat) (dg : List Nat) :
    ∀ l, (treeChunksWith (fun cs => writeTreeFor hashFn dg cs) hashFn dg l = [] ↔
      ∀ p ∈ l, childElided hashFn dg p = true) := by
  intro l
  induction l with
  | nil => simp [treeChunksWith]
  | cons p rest ih =>
    rcases p with ⟨name, node⟩
    cases node with
    | dir cs =>
      simp only [treeChunksWith, List.append_eq_nil, ih, List.forall_mem_cons]
      have hchunk : ((if name = dg then []
          else
            match writeTreeFor hashFn dg cs with
            | none => []
            | some h => writeTreeEntryBytes TreeEntryMode.directory name h) = ([] : List Nat)) ↔
          childElided hashFn dg (name, FSNode.dir cs) = true := by
        by_cases hn : name = dg
        · simp [hn, childElided]
        · cases hw : writeTreeFor hashFn dg cs with
          | none => simp [hn, childElided, hw]
          | some h =>
            simp [hn, childElided, hw, writeTreeEntryBytes_ne_nil]
      rw [hchunk]
    | file m content =>
      simp only [treeChunksWith, List.append_eq_nil, ih, List.forall_mem_cons]
      have hchunk : ((if name = dg then []
          else writeTreeEntryBytes m name
            (hashFn (objectWrite ObjectType.blob content.length content))) = ([] : List Nat)) ↔
          childElided hashFn dg (name, FSNode.file m content) = true := by
        by_cases hn : name = dg
        · simp [hn, childElided]
        · simp [hn, childElided, writeTreeEntryBytes_ne_nil]
      rw [hchunk]

/-- Helper: write_tree_for returns none exactly when every child of the
directory is elided. -/
theorem writeTreeFor_none_iff (hashFn : List Nat → List Nat) (dg : List Nat)
    (children : List (List Nat × FSNode)) :
    writeTreeFor hashFn dg children = none ↔
      ∀ p ∈ children, childElided hashFn dg p = true := by
  rw [writeTreeFor_unfold]
  by_cases hc : treeChunksWith (fun cs => writeTreeFor hashFn dg cs) hashFn dg
      (sortByCmp entryPairCmp children) = []
  · simp only [hc, if_pos]
    constructor
    · intro _ p hp
      exact (treeChunksWith_nil_iff hashFn dg _).mp hc p ((mem_sortByCmp _ _ _).mpr hp)
    · intro _; trivial
  · simp only [hc, if_neg, if_false]
    constructor
    · intro h; simp at h
    · intro h
      exact absurd ((treeChunksWith_nil_iff hashFn dg _).mpr
        (fun p hp => h p ((mem_sortByCmp _ _ _).mp hp))) hc

theorem onlyEmptyDirs_mem :
    ∀ l, onlyEmptyDirs l = true → ∀ p ∈ l,
      ∃ cs, p.2 = FSNode.dir cs ∧ onlyEmptyDirs cs = true := by
  intro l
  induction l with
  | nil => intro _ p hp; simp at hp
  | cons q rest ih =>
    intro honly p hp
    rcases q with ⟨name, node⟩
    cases node with
    | dir cs =>
      simp only [onlyEmptyDirs, Bool.and_eq_true] at honly
      rcases List.mem_cons.mp hp with h | h
      · subst h; exact ⟨cs, rfl, honly.1⟩
      · exact ih honly.2 p h
    | file m content => simp [onlyEmptyDirs] at honly

/-- Helper: a directory containing only (arbitrarily nested) empty
directories assembles to none. -/
theorem writeTreeFor_onlyEmpty (hashFn : List Nat → List Nat) (dg : List Nat) :
    ∀ n children, fsizeList children ≤ n → onlyEmptyDirs children = true →
      writeTreeFor hashFn dg children = none := by
  intro n
  induction n with
  | zero =>
    intro children hle _
    have := fsizeList_pos children
    omega
  | succ n ih =>
    intro children hle honly
    rw [writeTreeFor_none_iff]
    intro p hp
    obtain ⟨cs, hdir, honly2⟩ := onlyEmptyDirs_mem children honly p hp
    have h1 : fsizeNode p.2 < fsizeList children := fsizeNode_lt_of_mem _ _ hp
    have h2 : fsizeNode p.2 = 1 + fsizeList cs := by
      rw [hdir]; simp only [fsizeNode]
    have hrec : writeTreeFor hashFn dg cs = none := ih cs (by omega) honly2
    simp [childElided, hdir, hrec]

/-- C2: the assembler returns none exactly when no entries survive, that
is, when every child is the metadata-directory entry or a subdirectory
whose recursive assembly is none (so an empty subtree never contributes an
entry to the parent body); in particular a directory containing only empty
subdirectories assembles to none at every level. -/
theorem writeTree_none_iff_all_elided (hashFn : List Nat → List Nat) (dotGitName : List Nat)
    (children : List (List Nat × FSNode)) :
    (writeTreeFor hashFn dotGitName children = none ↔
      ∀ p ∈ children, childElided hashFn dotGitName p = true) ∧
    (onlyEmptyDirs children = true → writeTreeFor hashFn dotGitName children = none) :=
  ⟨writeTreeFor_none_iff hashFn dotGitName children,
   fun honly =>
     writeTreeFor_onlyEmpty hashFn dotGitName (fsizeList children) children
       (Nat.le_refl _) honly⟩

/-- Witness for C2: a directory holding one subdirectory that holds one
empty subdirectory assembles to none. -/
theorem writeTree_none_iff_all_elided_witness :
    writeTreeFor (fun _ => List.replicate 20 0) [46, 103, 105, 116]
      [([97], FSNode.dir [([98], FSNode.dir [])])] = none := by
  have honly : onlyEmptyDirs [([97], FSNode.dir [([98], FSNode.dir [])])] = true := by
    simp [onlyEmptyDirs]
  exact (writeTree_none_iff_all_elided (fun _ => List.replicate 20 0) [46, 103, 105, 116]
    [([97], FSNode.dir [([98], FSNode.dir [])])]).2 honly

end GitSpec
